import Mathlib

/-!
# Verification of the delay-coord core

Shallow embedding of the delay-coordinate embedding library (`src/lib.rs`):
the `ForwardDelayCoordinates` geometry, its sliding-window mapping iterator
`ForwardMapping`, and the `DelayMappedView` window type with its accessors.

Modelling conventions:
* `usize` values are modelled as `Nat`.  Subtraction is `Nat` truncated
  subtraction; on every path the Rust code actually takes with
  `dimension ≥ 1` this coincides with exact integer arithmetic, because the
  guards (`index < self.dimension`) rule out underflow.  The one underflowing
  configuration, `dimension = 0`, is analysed at `delay = 0`, where the
  truncated model provably agrees with Rust's release-mode wrapping
  semantics: `(0 - 1) * 0 + 1` wraps to `0xFFXX... * 0 + 1 = 1`, and the
  truncated model also yields `0 * 0 + 1 = 1`.  (A debug build panics on the
  underflow; either way the window size is not `0` there.)
* A Rust function returning `&T` or `T` is modelled as returning `T`
  (views borrow immutably; cloning is identity in the model).
* A Rust expression that may panic (`Option::unwrap`, `slice[i]`) is
  modelled in `Option`, with `none` standing for the panic.
* A Rust iterator is modelled by the finite list of items it yields before
  first returning `None`.
-/

set_option autoImplicit false

universe u v

/-- Rust `struct ForwardDelayCoordinates { delay: usize, dimension: usize }`. -/
structure ForwardDelayCoordinates where
  delay : Nat
  dimension : Nat
deriving Repr, DecidableEq

namespace ForwardDelayCoordinates

/-- Rust `fn window_size(&self) -> usize { (self.dimension-1)*self.delay+1 }`. -/
def window_size (c : ForwardDelayCoordinates) : Nat :=
  (c.dimension - 1) * c.delay + 1

/-- Rust `fn map_coord(&self, index: usize) -> Option usize`:
`if index < self.dimension { Some((self.dimension-index-1)*self.delay) } else { None }`. -/
def map_coord (c : ForwardDelayCoordinates) (index : Nat) : Option Nat :=
  if index < c.dimension then
    some ((c.dimension - index - 1) * c.delay)
  else
    none

end ForwardDelayCoordinates

/-- Rust `struct DelayMappedView { coord: &C, slice: &[T] }`: a borrowed
window of the source slice together with the geometry used to index it. -/
structure DelayMappedView (T : Type u) where
  coord : ForwardDelayCoordinates
  slice : List T
deriving DecidableEq

namespace DelayMappedView

variable {T : Type u}

/-- Rust `fn get(&self, index: usize) -> Option (&T)`:
`self.coord.map_coord(index).and_then(|pos| self.slice.get(pos))`. -/
def get (v : DelayMappedView T) (index : Nat) : Option T :=
  (v.coord.map_coord index).bind (fun pos => v.slice[pos]?)

/-- Rust `impl Index for DelayMappedView`: `self.get(index).unwrap()`.
The `unwrap` panic is modelled by `none`. -/
def indexOp (v : DelayMappedView T) (index : Nat) : Option T :=
  v.get index

/-- Rust `fn to_vec(&self) -> Vec T`:
`(0..self.coord.dimension()).map(|index| self[index].clone()).collect()`.
Any panic of the indexing shorthand is modelled by `none`. -/
def to_vec (v : DelayMappedView T) : Option (List T) :=
  (List.range v.coord.dimension).mapM (fun index => v.indexOp index)

/-- Rust `fn to_flatten_vec(&self) -> Vec Item` for `T : IntoIterator`
(modelled as `T = List U`):
`(0..self.coord.dimension()).map(|index| self[index].clone()).flatten().collect()`. -/
def to_flatten_vec {U : Type u} (v : DelayMappedView (List U)) : Option (List U) :=
  ((List.range v.coord.dimension).mapM (fun index => v.indexOp index)).map List.flatten

/-- One step of Rust `DelayMappedViewIter::next`: yield `self.view.get(self.index)`
and increment the index.  `iterRun fuel i` collects the items yielded starting
from logical index `i` until the iterator first returns `None` (the consumer
stops there); `fuel` bounds the recursion and is irrelevant once it exceeds
the number of items yielded. -/
def iterRun (v : DelayMappedView T) : Nat → Nat → List T
  | 0, _ => []
  | fuel + 1, i =>
    match v.get i with
    | none => []
    | some x => x :: v.iterRun fuel (i + 1)

/-- The full item sequence of Rust `DelayMappedViewIter` started at index `0`:
`v.get 0, v.get 1, ...` up to the first `None`.  Since `get` answers `none`
from index `dimension` on, `dimension + 1` steps of fuel always suffice. -/
def iterItems (v : DelayMappedView T) : List T :=
  v.iterRun (v.coord.dimension + 1) 0

end DelayMappedView

namespace ForwardDelayCoordinates

variable {T : Type u}

/-- One step of Rust `ForwardMapping::next` on the remaining slice `s`:
if fewer than `window_size` samples remain, the iterator is exhausted
(`none`); otherwise it emits a view over `s[0..window_size]` and advances
the remaining slice to `s[1..]`. -/
def mappingNext (c : ForwardDelayCoordinates) (s : List T) :
    Option (DelayMappedView T × List T) :=
  if s.length < c.window_size then
    none
  else
    some (⟨c, s.take c.window_size⟩, s.tail)

/-- The list of all views yielded by Rust `coord.mapping_iter(slice)` run to
exhaustion.  Because `window_size = (dimension-1)*delay + 1 ≥ 1` in the model,
each emitted step strictly shortens the remaining slice, so the run is the
structural recursion below (it agrees with iterating `mappingNext`, see
`mappingList_eq_next`). -/
def mappingList (c : ForwardDelayCoordinates) : List T → List (DelayMappedView T)
  | [] => []
  | x :: rest =>
    if (x :: rest).length < c.window_size then
      []
    else
      ⟨c, (x :: rest).take c.window_size⟩ :: c.mappingList rest

/-- The structural run `mappingList` unfolds exactly as iteration of the
faithful step function `mappingNext`. -/
theorem mappingList_eq_next (c : ForwardDelayCoordinates) (s : List T) :
    c.mappingList s =
      match c.mappingNext s with
      | none => []
      | some (v, rest) => v :: c.mappingList rest := by
  cases s with
  | nil =>
    simp [mappingList, mappingNext, window_size]
  | cons x rest =>
    simp only [mappingList, mappingNext, List.length_cons]
    by_cases h : rest.length + 1 < c.window_size
    · simp [h]
    · simp [h]

end ForwardDelayCoordinates

/-! ## Basic lemmas about the embedded definitions -/

namespace ForwardDelayCoordinates

variable {T : Type u}

/-- The window size is always positive in the model: it is `_ + 1`. -/
theorem window_size_pos (c : ForwardDelayCoordinates) : 0 < c.window_size :=
  Nat.succ_pos _

/-- The physical offset produced by `map_coord` for a valid logical index is
strictly below the window size. -/
theorem map_coord_offset_lt (c : ForwardDelayCoordinates) (i : Nat)
    (hi : i < c.dimension) :
    (c.dimension - i - 1) * c.delay < c.window_size := by
  have h1 : c.dimension - i - 1 ≤ c.dimension - 1 := by omega
  have h2 := Nat.mul_le_mul_right c.delay h1
  unfold window_size
  omega

/-- Every view produced by the mapping iterator carries the geometry it was
built from, has a window of exactly `window_size` samples, and only samples
drawn from the source slice. -/
theorem mem_mappingList (c : ForwardDelayCoordinates) (xs : List T)
    (v : DelayMappedView T) (hv : v ∈ c.mappingList xs) :
    v.coord = c ∧ v.slice.length = c.window_size ∧ ∀ y ∈ v.slice, y ∈ xs := by
  induction xs with
  | nil => simp [mappingList] at hv
  | cons x rest ih =>
    rw [mappingList] at hv
    by_cases h : (x :: rest).length < c.window_size
    · rw [if_pos h] at hv
      simp at hv
    · rw [if_neg h] at hv
      rcases List.mem_cons.mp hv with h1 | h2
      · subst h1
        refine ⟨rfl, ?_, ?_⟩
        · simp only [List.length_take, List.length_cons]
          simp only [List.length_cons] at h
          omega
        · intro y hy
          exact List.take_subset _ _ hy
      · obtain ⟨h1, h2, h3⟩ := ih h2
        exact ⟨h1, h2, fun y hy => List.mem_cons_of_mem x (h3 y hy)⟩

end ForwardDelayCoordinates

namespace DelayMappedView

variable {T : Type u}

/-- For a valid logical index, `get` looks up the mapped physical offset in the
window slice. -/
theorem get_eq_slice_lookup (v : DelayMappedView T) (i : Nat)
    (hi : i < v.coord.dimension) :
    v.get i = v.slice[(v.coord.dimension - i - 1) * v.coord.delay]? := by
  rw [get, ForwardDelayCoordinates.map_coord, if_pos hi, Option.some_bind]

/-- For a logical index at or past the dimension, `get` answers `none`. -/
theorem get_eq_none_of_le (v : DelayMappedView T) (i : Nat)
    (h : v.coord.dimension ≤ i) : v.get i = none := by
  rw [get, ForwardDelayCoordinates.map_coord, if_neg (by omega)]
  rfl

/-- On a view whose window has exactly `window_size` samples, `get` succeeds at
every logical index below the dimension. -/
theorem get_isSome_of_window (v : DelayMappedView T)
    (hlen : v.slice.length = v.coord.window_size) (i : Nat)
    (hi : i < v.coord.dimension) : (v.get i).isSome := by
  rw [get_eq_slice_lookup v i hi]
  have hlt : (v.coord.dimension - i - 1) * v.coord.delay < v.slice.length := by
    rw [hlen]
    exact v.coord.map_coord_offset_lt i hi
  rw [List.getElem?_eq_getElem hlt]
  rfl

/-- Length of a run of the view iterator: it stops at the first `none` from
`get`, which under the stated characterisation is logical index `d`. -/
theorem iterRun_length (v : DelayMappedView T) (d : Nat)
    (hsome : ∀ i, i < d → (v.get i).isSome)
    (hnone : ∀ i, d ≤ i → v.get i = none) :
    ∀ fuel i, (v.iterRun fuel i).length = min fuel (d - i) := by
  intro fuel
  induction fuel with
  | zero =>
    intro i
    simp [iterRun]
  | succ f ih =>
    intro i
    rw [iterRun]
    by_cases hi : i < d
    · obtain ⟨x, hx⟩ := Option.isSome_iff_exists.mp (hsome i hi)
      rw [hx]
      simp only [List.length_cons, ih (i + 1)]
      omega
    · rw [hnone i (by omega)]
      simp only [List.length_nil]
      omega

end DelayMappedView

/-- If an `Option`-valued function succeeds on every element of a list, then
`mapM` succeeds and produces the pointwise results, in order. -/
theorem mapM_option_eq_some {α : Type v} {β : Type u} (f : α → Option β) (L : List α)
    (h : ∀ a ∈ L, (f a).isSome) :
    ∃ l, L.mapM f = some l ∧ l.length = L.length ∧
      ∀ i, i < L.length → l[i]? = (L[i]?).bind f := by
  induction L with
  | nil =>
    refine ⟨[], rfl, rfl, fun i hi => ?_⟩
    simp at hi
  | cons a L ih =>
    obtain ⟨b, hb⟩ := Option.isSome_iff_exists.mp (h a (List.mem_cons_self a L))
    obtain ⟨l, hl, hlen, hget⟩ := ih (fun x hx => h x (List.mem_cons_of_mem a hx))
    refine ⟨b :: l, ?_, by simp [hlen], ?_⟩
    · rw [List.mapM_cons, hb, hl]
      rfl
    · intro i hi
      cases i with
      | zero => simp [hb]
      | succ n =>
        simp only [List.getElem?_cons_succ]
        exact hget n (by simpa using hi)

/-- The mapping iterator always yields `N + 1 - window_size` views (truncated
natural subtraction) on a source of length `N`. -/
theorem ForwardDelayCoordinates.mappingList_length {T : Type u}
    (c : ForwardDelayCoordinates) (xs : List T) :
    (c.mappingList xs).length = xs.length + 1 - c.window_size := by
  have hws := c.window_size_pos
  induction xs with
  | nil =>
    simp only [ForwardDelayCoordinates.mappingList, List.length_nil]
    omega
  | cons x rest ih =>
    rw [ForwardDelayCoordinates.mappingList]
    by_cases h : (x :: rest).length < c.window_size
    · rw [if_pos h]
      simp only [List.length_cons, List.length_nil] at *
      omega
    · rw [if_neg h]
      simp only [List.length_cons] at *
      omega

/-! ## Claim theorems -/

/-- C1: for every forward delay geometry with parameters `delay` and
`dimension`, `map_coord i` returns `some ((dimension - i - 1) * delay)` for
every `i < dimension` and returns `none` (out of range) for every
`i ≥ dimension`. -/
theorem C1_map_coord_spec (c : ForwardDelayCoordinates) (i : Nat) :
    (i < c.dimension →
      c.map_coord i = some ((c.dimension - i - 1) * c.delay)) ∧
    (c.dimension ≤ i → c.map_coord i = none) := by
  constructor
  · intro h
    rw [ForwardDelayCoordinates.map_coord, if_pos h]
  · intro h
    rw [ForwardDelayCoordinates.map_coord, if_neg (by omega)]

/-- Witness for C1 at `delay = 2`, `dimension = 3`, indices `0` and `5`. -/
theorem C1_map_coord_spec_witness :
    ({ delay := 2, dimension := 3 } : ForwardDelayCoordinates).map_coord 0 =
        some 4 ∧
    ({ delay := 2, dimension := 3 } : ForwardDelayCoordinates).map_coord 5 =
        none :=
  ⟨(C1_map_coord_spec { delay := 2, dimension := 3 } 0).1 (by decide),
   (C1_map_coord_spec { delay := 2, dimension := 3 } 5).2 (by decide)⟩

/-- C2: on a source slice of length `N`, the mapping iterator yields exactly
`max (0, N - window_size + 1)` views (the truncated natural
`N + 1 - window_size`): exactly `N - window_size + 1` views when
`window_size ≤ N`, and zero views when `window_size > N`. -/
theorem C2_mapping_count {T : Type u} (c : ForwardDelayCoordinates)
    (xs : List T) (_hdim : 1 ≤ c.dimension) :
    (c.mappingList xs).length = xs.length + 1 - c.window_size ∧
    (c.window_size ≤ xs.length →
      (c.mappingList xs).length = xs.length - c.window_size + 1) ∧
    (xs.length < c.window_size → (c.mappingList xs).length = 0) := by
  have h := c.mappingList_length xs
  have hws := c.window_size_pos
  exact ⟨h, fun h1 => by omega, fun h1 => by omega⟩

/-- Witness for C2: ten samples with `delay = 2`, `dimension = 3`
(window size `5`) give six views; two samples give none. -/
theorem C2_mapping_count_witness :
    (({ delay := 2, dimension := 3 } : ForwardDelayCoordinates).mappingList
        (List.range 10)).length = 6 ∧
    (({ delay := 2, dimension := 3 } : ForwardDelayCoordinates).mappingList
        ([0, 1] : List Nat)).length = 0 :=
  ⟨((C2_mapping_count { delay := 2, dimension := 3 } (List.range 10)
        (by decide)).2.1 (by decide)).trans (by decide),
   (C2_mapping_count { delay := 2, dimension := 3 } ([0, 1] : List Nat)
        (by decide)).2.2 (by decide)⟩

/-- C3: on every view produced by the mapping iterator of a geometry with
`dimension ≥ 1`, logical index `0` reads the last physical element of the
view's window (the newest sample, at offset `window_size - 1`) and logical
index `dimension - 1` reads the first physical element (the oldest sample,
at offset `0`). -/
theorem C3_view_extremes {T : Type u} (c : ForwardDelayCoordinates)
    (xs : List T) (v : DelayMappedView T) (hdim : 1 ≤ c.dimension)
    (hv : v ∈ c.mappingList xs) :
    v.get 0 = v.slice.getLast? ∧ v.get (c.dimension - 1) = v.slice.head? := by
  obtain ⟨hc, hlen, -⟩ := c.mem_mappingList xs v hv
  have hd0 : 0 < v.coord.dimension := by rw [hc]; omega
  constructor
  · rw [v.get_eq_slice_lookup 0 hd0, List.getLast?_eq_getElem?]
    congr 1
    rw [hc, hlen]
    simp [ForwardDelayCoordinates.window_size]
  · rw [v.get_eq_slice_lookup (c.dimension - 1) (by rw [hc]; omega),
      List.head?_eq_getElem?]
    congr 1
    rw [hc]
    have h0 : c.dimension - (c.dimension - 1) - 1 = 0 := by omega
    rw [h0, Nat.zero_mul]

/-- Witness for C3 on the first view of the reference scenario. -/
theorem C3_view_extremes_witness :
    (DelayMappedView.mk { delay := 2, dimension := 3 } [0, 1, 2, 3, 4]).get 0 =
      some 4 ∧
    (DelayMappedView.mk { delay := 2, dimension := 3 } [0, 1, 2, 3, 4]).get 2 =
      some 0 := by
  have h := C3_view_extremes { delay := 2, dimension := 3 } (List.range 10)
      (DelayMappedView.mk { delay := 2, dimension := 3 } [0, 1, 2, 3, 4])
      (by decide) (by decide)
  exact ⟨h.1.trans (by decide), h.2.trans (by decide)⟩

/-- C4: on the source `[0, 1, ..., 9]` with `delay = 2` and `dimension = 3`,
materialising each produced view with `to_vec` yields exactly
`[4,2,0], [5,3,1], [6,4,2], [7,5,3], [8,6,4], [9,7,5]`, in that order, and
the iterator is then exhausted (no further view exists). -/
theorem C4_reference_scenario :
    (({ delay := 2, dimension := 3 } : ForwardDelayCoordinates).mappingList
        (List.range 10)).map DelayMappedView.to_vec =
      [some [4, 2, 0], some [5, 3, 1], some [6, 4, 2], some [7, 5, 3],
        some [8, 6, 4], some [9, 7, 5]] := by
  decide

/-- C5 counterexample: with `dimension = 0` and `delay = 0` the window size is
`1`, not `0`.  In the Rust source, `(self.dimension - 1) * self.delay + 1`
underflows at `dimension = 0`: a release build wraps the subtraction, giving
`(2^64 - 1) * 0 + 1 = 1` at `delay = 0` (a debug build panics on the
underflow instead); the truncated-`Nat` model agrees with the wrapped value
at `delay = 0`.  So the claimed zero-length window never arises. -/
theorem C5_degenerate_counterexample :
    ({ delay := 0, dimension := 0 } : ForwardDelayCoordinates).window_size ≠ 0 := by
  decide

/-- C5 amended: a geometry with `dimension = 0` and `delay = 0` is accepted
without validation, but its window size is `1` (not `0`): each produced view
covers exactly one sample, and the mapping iterator emits exactly one view
per source element. -/
theorem C5_degenerate_amended {T : Type u} (xs : List T) :
    ({ delay := 0, dimension := 0 } : ForwardDelayCoordinates).window_size = 1 ∧
    (({ delay := 0, dimension := 0 } : ForwardDelayCoordinates).mappingList
        xs).map (fun v => v.slice.length) = xs.map (fun _ => 1) := by
  refine ⟨rfl, ?_⟩
  induction xs with
  | nil => rfl
  | cons x rest ih =>
    have hws : ({ delay := 0, dimension := 0 } :
        ForwardDelayCoordinates).window_size = 1 := rfl
    rw [ForwardDelayCoordinates.mappingList,
      if_neg (by rw [hws]; simp)]
    simp only [List.map_cons]
    rw [hws]
    simp only [List.take_succ_cons, List.take_zero, List.length_cons,
      List.length_nil]
    rw [ih]

/-- C6: for every geometry with `delay ≥ 1` and `dimension ≥ 1`, `map_coord`
is injective over the logical indices `[0, dimension)`, and every offset it
returns for such an index lies in `[0, window_size)`. -/
theorem C6_injective_bounded (c : ForwardDelayCoordinates)
    (hdel : 1 ≤ c.delay) (_hdim : 1 ≤ c.dimension) :
    (∀ i j, i < c.dimension → j < c.dimension →
      c.map_coord i = c.map_coord j → i = j) ∧
    (∀ i, i < c.dimension → ∀ p, c.map_coord i = some p →
      p < c.window_size) := by
  constructor
  · intro i j hi hj hij
    simp only [ForwardDelayCoordinates.map_coord] at hij
    rw [if_pos hi, if_pos hj] at hij
    have h := Option.some.inj hij
    have h2 := Nat.eq_of_mul_eq_mul_right (by omega : 0 < c.delay) h
    omega
  · intro i hi p hp
    have hb := c.map_coord_offset_lt i hi
    rw [ForwardDelayCoordinates.map_coord, if_pos hi] at hp
    have h := Option.some.inj hp
    omega

/-- Witness for C6: at `delay = 2`, `dimension = 3`, the offset `4` returned
for logical index `0` is below the window size `5`. -/
theorem C6_injective_bounded_witness :
    4 < ({ delay := 2, dimension := 3 } : ForwardDelayCoordinates).window_size :=
  (C6_injective_bounded { delay := 2, dimension := 3 } (by decide)
    (by decide)).2 0 (by decide) 4 (by decide)

/-- C7: `get i` returns the element at the geometry-mapped physical offset
exactly when the logical index is valid for the geometry and the mapped
offset lies within the view's slice, and returns `none` otherwise; the
`Index` shorthand (whose `unwrap` panic is modelled by `none`) returns the
same element as `get i` whenever `get i` succeeds, and fails exactly when
`get i` is `none`. -/
theorem C7_get_index_agree {T : Type u} (v : DelayMappedView T) (i : Nat) :
    ((i < v.coord.dimension ∧
        (v.coord.dimension - i - 1) * v.coord.delay < v.slice.length) →
      v.get i = v.slice[(v.coord.dimension - i - 1) * v.coord.delay]? ∧
        (v.get i).isSome) ∧
    ((v.coord.dimension ≤ i ∨
        v.slice.length ≤ (v.coord.dimension - i - 1) * v.coord.delay) →
      v.get i = none) ∧
    (∀ x, v.get i = some x → v.indexOp i = some x) ∧
    (v.indexOp i = none ↔ v.get i = none) := by
  refine ⟨?_, ?_, fun x hx => hx, Iff.rfl⟩
  · rintro ⟨hi, hlt⟩
    refine ⟨v.get_eq_slice_lookup i hi, ?_⟩
    rw [v.get_eq_slice_lookup i hi, List.getElem?_eq_getElem hlt]
    rfl
  · rintro (h | h)
    · exact v.get_eq_none_of_le i h
    · by_cases hi : i < v.coord.dimension
      · rw [v.get_eq_slice_lookup i hi]
        exact List.getElem?_eq_none h
      · exact v.get_eq_none_of_le i (by omega)

/-- Witness for C7 on a five-sample window with `delay = 2`, `dimension = 3`:
`get 0` reads offset `4` and `get 3` is out of range. -/
theorem C7_get_index_agree_witness :
    (DelayMappedView.mk { delay := 2, dimension := 3 }
        [10, 20, 30, 40, 50]).get 0 = some 50 ∧
    (DelayMappedView.mk { delay := 2, dimension := 3 }
        [10, 20, 30, 40, 50]).get 3 = none := by
  have h0 := C7_get_index_agree
      (DelayMappedView.mk { delay := 2, dimension := 3 } [10, 20, 30, 40, 50]) 0
  have h3 := C7_get_index_agree
      (DelayMappedView.mk { delay := 2, dimension := 3 } [10, 20, 30, 40, 50]) 3
  exact ⟨((h0.1 ⟨by decide, by decide⟩).1).trans (by decide),
    h3.2.1 (Or.inl (by decide))⟩

/-- C8: on every view produced by the mapping iterator of a geometry with
`dimension ≥ 1` (any delay), `to_vec` succeeds (no indexing panic) with an
owned sequence of length exactly `dimension` whose entry `i` is the view's
logical element `i`, in logical order. -/
theorem C8_to_vec_spec {T : Type u} (c : ForwardDelayCoordinates)
    (xs : List T) (v : DelayMappedView T) (_hdim : 1 ≤ c.dimension)
    (hv : v ∈ c.mappingList xs) :
    ∃ l, v.to_vec = some l ∧ l.length = c.dimension ∧
      ∀ i, i < c.dimension → l[i]? = v.get i := by
  obtain ⟨hc, hlen, -⟩ := c.mem_mappingList xs v hv
  rw [← hc] at hlen ⊢
  have hsome : ∀ a ∈ List.range v.coord.dimension, (v.indexOp a).isSome := by
    intro a ha
    exact v.get_isSome_of_window hlen a (List.mem_range.mp ha)
  obtain ⟨l, hl, hlen2, hget⟩ := mapM_option_eq_some _ _ hsome
  refine ⟨l, hl, ?_, ?_⟩
  · rw [hlen2, List.length_range]
  · intro i hi
    have hi' : i < (List.range v.coord.dimension).length := by
      rw [List.length_range]
      exact hi
    rw [hget i hi', List.getElem?_range hi, Option.some_bind]
    rfl

/-- Witness for C8 on the first view of the reference scenario: `to_vec`
succeeds with a vector of length `3`. -/
theorem C8_to_vec_spec_witness :
    ((DelayMappedView.mk { delay := 2, dimension := 3 }
        [0, 1, 2, 3, 4]).to_vec).map List.length = some 3 := by
  obtain ⟨l, h1, h2, -⟩ := C8_to_vec_spec { delay := 2, dimension := 3 }
      (List.range 10)
      (DelayMappedView.mk { delay := 2, dimension := 3 } [0, 1, 2, 3, 4])
      (by decide) (by decide)
  rw [h1, Option.map_some']
  exact congrArg some (h2.trans (by decide))

/-- Sum of the lengths of lists that all have the same length `comps`. -/
theorem sum_map_length_const {α : Type u} (l : List (List α)) (comps : Nat)
    (h : ∀ y ∈ l, y.length = comps) :
    (l.map List.length).sum = l.length * comps := by
  induction l with
  | nil => simp
  | cons a l ih =>
    simp only [List.map_cons, List.sum_cons, List.length_cons]
    rw [h a (List.mem_cons_self a l),
      ih (fun y hy => h y (List.mem_cons_of_mem a hy))]
    ring

/-- C9: on every view produced by the mapping iterator of a geometry with
`dimension ≥ 1`, when every sample of the source is itself a collection of
exactly `comps` components, `to_flatten_vec` succeeds with the concatenation
of the `dimension` logical elements' contents, in logical order then
per-element order, of length exactly `dimension * comps`. -/
theorem C9_to_flatten_vec_spec {U : Type u} (c : ForwardDelayCoordinates)
    (xs : List (List U)) (v : DelayMappedView (List U)) (comps : Nat)
    (_hdim : 1 ≤ c.dimension) (hv : v ∈ c.mappingList xs)
    (hcomps : ∀ s ∈ xs, s.length = comps) :
    ∃ l, (List.range c.dimension).mapM v.indexOp = some l ∧
      v.to_flatten_vec = some l.flatten ∧
      l.length = c.dimension ∧
      l.flatten.length = c.dimension * comps := by
  obtain ⟨hc, hlen, hmem⟩ := c.mem_mappingList xs v hv
  rw [← hc] at hlen ⊢
  have hsome : ∀ a ∈ List.range v.coord.dimension, (v.indexOp a).isSome := by
    intro a ha
    exact v.get_isSome_of_window hlen a (List.mem_range.mp ha)
  obtain ⟨l, hl, hlen2, hget⟩ := mapM_option_eq_some _ _ hsome
  have hel : ∀ y ∈ l, y.length = comps := by
    intro y hy
    obtain ⟨i, hi⟩ := List.mem_iff_getElem?.mp hy
    obtain ⟨hilt, -⟩ := List.getElem?_eq_some.mp hi
    have hid : i < v.coord.dimension := by
      rw [hlen2, List.length_range] at hilt
      exact hilt
    have hi' : i < (List.range v.coord.dimension).length := by
      rw [List.length_range]
      exact hid
    rw [hget i hi', List.getElem?_range hid, Option.some_bind] at hi
    have hget2 : v.get i = some y := hi
    rw [v.get_eq_slice_lookup i hid] at hget2
    exact hcomps y (hmem y (List.getElem?_mem hget2))
  refine ⟨l, hl, ?_, ?_, ?_⟩
  · show ((List.range v.coord.dimension).mapM
        (fun index => v.indexOp index)).map List.flatten = some l.flatten
    rw [hl]
    rfl
  · rw [hlen2, List.length_range]
  · rw [List.length_flatten, sum_map_length_const l comps hel, hlen2,
      List.length_range]

/-- Witness for C9 on the first view of the multivariate reference scenario
(`delay = 5`, `dimension = 2`, pairs as samples): the flattened vector has
length `4`. -/
theorem C9_to_flatten_vec_spec_witness :
    ((DelayMappedView.mk { delay := 5, dimension := 2 }
        [[0, 0], [1, 1], [2, 2], [3, 3], [4, 4], [5, 5]]).to_flatten_vec).map
      List.length = some 4 := by
  obtain ⟨l, -, h2, -, h4⟩ := C9_to_flatten_vec_spec
      { delay := 5, dimension := 2 }
      [[0, 0], [1, 1], [2, 2], [3, 3], [4, 4], [5, 5], [6, 6], [7, 7],
        [8, 8], [9, 9]]
      (DelayMappedView.mk { delay := 5, dimension := 2 }
        [[0, 0], [1, 1], [2, 2], [3, 3], [4, 4], [5, 5]])
      2 (by decide) (by decide) (by decide)
  rw [h2, Option.map_some']
  exact congrArg some (h4.trans (by decide))

/-- C10: on every view produced by the mapping iterator of a geometry with
`dimension ≥ 1` (any delay, including `0`), `get` succeeds at every logical
index below the dimension — the defensive slice-bounds check never fires —
the `Index` shorthand's `unwrap` never panics there, and the view iterator
yields exactly `dimension` elements before first answering `none`. -/
theorem C10_view_safety {T : Type u} (c : ForwardDelayCoordinates)
    (xs : List T) (v : DelayMappedView T) (hdim : 1 ≤ c.dimension)
    (hv : v ∈ c.mappingList xs) :
    (∀ i, i < c.dimension → (v.get i).isSome) ∧
    (∀ i, i < c.dimension → (v.indexOp i).isSome) ∧
    v.iterItems.length = c.dimension := by
  obtain ⟨hc, hlen, -⟩ := c.mem_mappingList xs v hv
  rw [← hc] at hlen
  have hsome : ∀ i, i < c.dimension → (v.get i).isSome := by
    intro i hi
    exact v.get_isSome_of_window hlen i (by rw [hc]; exact hi)
  refine ⟨hsome, hsome, ?_⟩
  have hnone : ∀ i, c.dimension ≤ i → v.get i = none := by
    intro i hi
    exact v.get_eq_none_of_le i (by rw [hc]; exact hi)
  have h := v.iterRun_length c.dimension hsome hnone
      (v.coord.dimension + 1) 0
  rw [DelayMappedView.iterItems, h, hc]
  omega

/-- Witness for C10 on the first view of the reference scenario: the view
iterator yields exactly three elements. -/
theorem C10_view_safety_witness :
    (DelayMappedView.mk { delay := 2, dimension := 3 }
        [0, 1, 2, 3, 4]).iterItems.length = 3 :=
  (C10_view_safety { delay := 2, dimension := 3 } (List.range 10)
    (DelayMappedView.mk { delay := 2, dimension := 3 } [0, 1, 2, 3, 4])
    (by decide) (by decide)).2.2
